import Mathlib

/-!
Verification development for the autocut podcast repository.

Part 1 models the Timeline Alignment Engine described in the design
document (TextNormalizer, PositionIndex, ProportionalReflow,
SegmentMatcher, GapOverlapReconciler).  The engine itself is not present
among the shipped source files, so every definition in that part is
modelled from the design document and carries a doc comment saying so.
Seconds are modelled as exact rationals; strings as lists of characters.

Part 2 is a shallow embedding of the shipped script check_cuda.py
(function diagnose_cuda).  Python exceptions are modelled with Except,
the import/runtime environment with an explicit structure, and the
sequence of printed lines with a list of strings.
-/

namespace Autocut

/-- Modelled from the spec: §4.1 TextNormalizer retained character class,
CJK ideographs U+4E00 to U+9FFF, ASCII letters, ASCII digits. -/
def retained (c : Char) : Bool :=
  (0x4E00 ≤ c.toNat && c.toNat ≤ 0x9FFF) ||
  (65 ≤ c.toNat && c.toNat ≤ 90) ||
  (97 ≤ c.toNat && c.toNat ≤ 122) ||
  (48 ≤ c.toNat && c.toNat ≤ 57)

/-- ASCII upper-case letter test, by code point. -/
def isUpperAscii (c : Char) : Bool :=
  65 ≤ c.toNat && c.toNat ≤ 90

/-- Modelled from the spec: §4.1, ASCII letters are lower-cased by
normalization; all other retained characters are kept as they are. -/
def normChar (c : Char) : Char :=
  if isUpperAscii c then Char.ofNat (c.toNat + 32) else c

/-- Modelled from the spec: §4.1 TextNormalizer.normalize keeps only the
retained characters, in original order, lower-casing ASCII letters. -/
def normalize : List Char → List Char
  | [] => []
  | c :: rest => if retained c then normChar c :: normalize rest else normalize rest

/-- Modelled from the spec: §3 TimedToken, a timestamped atomic unit of
transcribed speech.  The field named end in the document is called stop
here because end is a Lean keyword.  Seconds are exact rationals. -/
structure TimedToken where
  text : List Char
  start : ℚ
  stop : ℚ
deriving DecidableEq

/-- Normalized character length of the text of a token. -/
def normLen (t : TimedToken) : Nat := (normalize t.text).length

/-- Modelled from the spec: §3 PositionIndex entry, cumulative
normalized-character offsets of one token. -/
structure IndexEntry where
  token_index : Nat
  start_pos : Nat
  end_pos : Nat
deriving DecidableEq

/-- Helper for buildIndex: walks the tokens carrying the next token index
and the cumulative normalized length. -/
def buildIndexGo : Nat → Nat → List TimedToken → List IndexEntry
  | _, _, [] => []
  | i, cum, t :: ts =>
    ⟨i, cum, cum + normLen t⟩ :: buildIndexGo (i + 1) (cum + normLen t) ts

/-- Modelled from the spec: §4.2 PositionIndex.build, one entry per token,
with start_pos the running cumulative length and end_pos its advance. -/
def buildIndex (tokens : List TimedToken) : List IndexEntry :=
  buildIndexGo 0 0 tokens

/-- Round to the nearest integer and clamp into the interval [0, total];
the clamp of §4.3 step 2 of the design document. -/
def clampPos (total : Nat) (x : ℚ) : Nat := min (round x).toNat total

/-- Modelled from the spec: §4.3 steps 2 and 3 of ProportionalReflow.
Walks the tokens keeping the real-valued accumulator and the previous
target end position; every token with nonzero normalized length receives
the slice of the normalized revised stream between the previous target
position and the new one, pure punctuation tokens keep their text.
Returns the rewritten tokens together with the final target position. -/
def reflowWalk (scale : ℚ) (total : Nat) (norm : List Char) :
    ℚ → Nat → List TimedToken → List TimedToken × Nat
  | _, prev, [] => ([], prev)
  | acc, prev, t :: rest =>
    if normLen t = 0 then
      let r := reflowWalk scale total norm acc prev rest
      (t :: r.1, r.2)
    else
      let acc2 := acc + (normLen t : ℚ) * scale
      let tgt := clampPos total acc2
      let slice := (norm.take tgt).drop prev
      let r := reflowWalk scale total norm acc2 tgt rest
      ({ t with text := slice } :: r.1, r.2)

/-- Modelled from the spec: §4.3 step 4, the unconsumed trailing
characters are appended to the last token that received a nonempty
slice.  Returns none when no token received a nonempty slice. -/
def appendLast (leftover : List Char) : List TimedToken → Option (List TimedToken)
  | [] => none
  | t :: rest =>
    match appendLast leftover rest with
    | some r => some (t :: r)
    | none =>
      if normLen t = 0 then none
      else some ({ t with text := t.text ++ leftover } :: rest)

/-- Modelled from the spec: §4.3 step 4 of ProportionalReflow: the
unconsumed trailing characters of the normalized revised stream are
appended to the last token that received a nonempty slice; in the
degenerate case where no token did, they are forced onto the first
slot, per the parenthetical of step 1. -/
def reflowAssemble (norm : List Char) (w : List TimedToken × Nat) : List TimedToken :=
  let leftover := norm.drop w.2
  if leftover = [] then w.1
  else
    match appendLast leftover w.1 with
    | some r => r
    | none =>
      match w.1 with
      | [] => []
      | t :: rest => { t with text := t.text ++ leftover } :: rest

/-- Modelled from the spec: §4.3 ProportionalReflow.reflow.  The scale
factor is the ratio of step 1, with the degenerate zero denominator
giving 1; then the walk of steps 2 and 3 and the leftover placement of
step 4. -/
def reflow (tokens : List TimedToken) (revised : List Char) : List TimedToken :=
  let norm := normalize revised
  let totalOrig := (tokens.map normLen).sum
  let scale : ℚ := if totalOrig = 0 then 1 else (norm.length : ℚ) / (totalOrig : ℚ)
  reflowAssemble norm (reflowWalk scale norm.length norm 0 0 tokens)

/-- The pair of timestamps of a token, the data §4.3 must not alter. -/
def timeOf (t : TimedToken) : ℚ × ℚ := (t.start, t.stop)

/-- Modelled from the spec: §3 TextUnit, a caller supplied line or scene
description requiring a time range. -/
structure TextUnit where
  id : Nat
  raw_text : List Char
deriving DecidableEq

/-- Modelled from the spec: §3 AlignedSegment, the output record of the
core.  The field named end in the document is called stop here. -/
structure AlignedSegment where
  unit_id : Nat
  start : ℚ
  stop : ℚ
  text : List Char
deriving DecidableEq

/-- Which path of §4.4 produced a segment: a real match, the empty-text
fallback of step 1, or the no-match fallback of step 4.  The design
document asks for the fallback paths to be observable (§7). -/
inductive MatchPath where
  | matched
  | emptyText
  | noMatch
deriving DecidableEq

/-- Modelled from the spec: §4.4 step 3, non-empty intersection test of an
index entry with the target range [cursor, cursor+L). -/
def entryIntersects (cursor L : Nat) (e : IndexEntry) : Bool :=
  decide (cursor < e.end_pos) && decide (e.start_pos < cursor + L)

/-- Modelled from the spec: §4.4 step 3: among the index entries whose
position span intersects the target range, the first one and the last
one, resolved to their tokens.  None when no entry intersects or a
token index is out of range. -/
def lookupPair (index : List IndexEntry) (tokens : List TimedToken)
    (cursor L : Nat) : Option (TimedToken × TimedToken) :=
  match (index.filter (entryIntersects cursor L)).head?,
        (index.filter (entryIntersects cursor L)).getLast? with
  | some e1, some e2 =>
    match tokens[e1.token_index]?, tokens[e2.token_index]? with
    | some t1, some t2 => some (t1, t2)
    | _, _ => none
  | _, _ => none

/-- Modelled from the spec: §4.4 SegmentMatcher, one unit at a time,
threading the cumulative character cursor and the previous segment end
time (used by both fallbacks; it starts at 0). -/
def matchGo (index : List IndexEntry) (tokens : List TimedToken) :
    Nat → ℚ → List TextUnit → List (AlignedSegment × MatchPath)
  | _, _, [] => []
  | cursor, prevEnd, u :: us =>
    let L := (normalize u.raw_text).length
    if L = 0 then
      (⟨u.id, prevEnd, prevEnd, u.raw_text⟩, MatchPath.emptyText)
        :: matchGo index tokens cursor prevEnd us
    else
      match lookupPair index tokens cursor L with
      | some (t1, t2) =>
        (⟨u.id, t1.start, t2.stop, u.raw_text⟩, MatchPath.matched)
          :: matchGo index tokens (cursor + L) t2.stop us
      | none =>
        (⟨u.id, prevEnd, prevEnd, u.raw_text⟩, MatchPath.noMatch)
          :: matchGo index tokens (cursor + L) prevEnd us

/-- Modelled from the spec: §4.4 SegmentMatcher.match, with the cursor and
the fallback time both starting at 0.  Each produced segment is paired
with the path that produced it. -/
def matchUnits (units : List TextUnit) (index : List IndexEntry)
    (tokens : List TimedToken) : List (AlignedSegment × MatchPath) :=
  matchGo index tokens 0 0 units

/-- Normalized character count of a segment, used by the proportional
tie-break of §4.5 step 1. -/
def segChars (s : AlignedSegment) : Nat := (normalize s.text).length

/-- Modelled from the spec: §4.5 step 1, the proportional split point for
an overlapping pair with tied starts: the shared interval up to the
larger end is divided according to the two normalized character counts. -/
def tieCut (s t : AlignedSegment) : ℚ :=
  s.start + (max s.stop t.stop - s.start) *
    ((segChars s : ℚ) / ((segChars s : ℚ) + (segChars t : ℚ)))

/-- Modelled from the spec: §4.5 step 1, the backward overlap pass, from
the last pair to the first.  For an overlapping pair with equal starts
the shared interval is split at tieCut; otherwise the start of the later
segment is authoritative. -/
def backwardPass : List AlignedSegment → List AlignedSegment
  | [] => []
  | [s] => [s]
  | s :: t0 :: rest =>
    match backwardPass (t0 :: rest) with
    | [] => [s]
    | t :: rs =>
      if t.start < s.stop then
        if s.start = t.start then
          { s with stop := tieCut s t } :: { t with start := tieCut s t } :: rs
        else
          { s with stop := t.start } :: t :: rs
      else
        s :: t :: rs

/-- Modelled from the spec: §4.5 step 2, the forward gap pass: wherever
the next segment starts after the previous one ends, the previous end is
pulled forward to the next start. -/
def forwardPass : List AlignedSegment → List AlignedSegment
  | [] => []
  | [s] => [s]
  | s :: t :: rs =>
    (if s.stop < t.start then { s with stop := t.start } else s) :: forwardPass (t :: rs)

/-- Modelled from the spec: §4.5 GapOverlapReconciler.reconcile, the
backward overlap pass followed by the forward gap pass. -/
def reconcile (l : List AlignedSegment) : List AlignedSegment :=
  forwardPass (backwardPass l)

/-- Adjacent pairs satisfy stop less or equal start (no overlap). -/
def pairwiseLeB : List AlignedSegment → Bool
  | [] => true
  | [_] => true
  | s :: t :: rs => decide (s.stop ≤ t.start) && pairwiseLeB (t :: rs)

/-- Adjacent pairs satisfy stop equal start (contiguity). -/
def contiguousB : List AlignedSegment → Bool
  | [] => true
  | [_] => true
  | s :: t :: rs => decide (s.stop = t.start) && contiguousB (t :: rs)

/-- Start times strictly increase along the list. -/
def strictStartsB : List AlignedSegment → Bool
  | [] => true
  | [_] => true
  | s :: t :: rs => decide (s.start < t.start) && strictStartsB (t :: rs)

/-- Modelled from the spec: §6, a raw JSON field value of the token input,
either a string or a number (seconds). -/
inductive RawVal where
  | vstr (s : List Char)
  | vnum (q : ℚ)
deriving DecidableEq

/-- Modelled from the spec: §6 token input, one raw segment object whose
required fields may be missing or of the wrong type. -/
structure RawToken where
  text : Option RawVal
  start : Option RawVal
  stop : Option RawVal
deriving DecidableEq

/-- Modelled from the spec: §7 InputError, the only failure of the core. -/
inductive InputError where
  | inputError
deriving DecidableEq

/-- Modelled from the spec: §6 and §7, structural validation of one raw
token: text must be a string, start and stop numbers, with
stop at least start at least zero (no negative duration). -/
def validateToken (r : RawToken) : Option TimedToken :=
  match r.text, r.start, r.stop with
  | some (RawVal.vstr s), some (RawVal.vnum a), some (RawVal.vnum b) =>
    if 0 ≤ a ∧ a ≤ b then some ⟨s, a, b⟩ else none
  | _, _, _ => none

/-- Modelled from the spec: §7, validation of the whole token input,
failing fast on the first structurally invalid token. -/
def validateTokens : List RawToken → Except InputError (List TimedToken)
  | [] => Except.ok []
  | r :: rs =>
    match validateToken r with
    | none => Except.error InputError.inputError
    | some t =>
      match validateTokens rs with
      | Except.error e => Except.error e
      | Except.ok ts => Except.ok (t :: ts)

/-- Modelled from the spec: §2 data flow and §7.  The alignment call:
validate the raw tokens (the only fail-fast condition), optionally
reflow a revised text over them, build the position index, match the
units and reconcile.  Degenerate inputs take the documented fallback
paths inside reflow and matchUnits and never produce an error. -/
def alignCore (raw : List RawToken) (units : List TextUnit)
    (revised : Option (List Char)) : Except InputError (List AlignedSegment) :=
  match validateTokens raw with
  | Except.error e => Except.error e
  | Except.ok tokens =>
    let toks := match revised with
      | none => tokens
      | some rv => reflow tokens rv
    let index := buildIndex toks
    Except.ok (reconcile ((matchUnits units index toks).map (fun p => p.1)))

/-- Concrete segment used in the reconciliation counterexample: nine
normalized characters, interval 0 to 10. -/
def exSeg0 : AlignedSegment := ⟨0, 0, 10, ['a', 'b', 'c', 'd', 'e', 'f', 'g', 'h', 'i']⟩

/-- Concrete segment used in the reconciliation counterexample: one
normalized character, interval 0 to 1, start tied with exSeg0. -/
def exSeg1 : AlignedSegment := ⟨1, 0, 1, ['a']⟩

/-- Concrete segment used in the reconciliation counterexample: empty
text, zero-duration at 1. -/
def exSeg2 : AlignedSegment := ⟨2, 1, 1, []⟩

end Autocut

namespace CheckCuda

/-- State of the torch probe when the import succeeds: whether
torch.cuda.is_available() returns true, and the reported device name and
CUDA version strings. -/
structure TorchInfo where
  cuda_available : Bool
  device_name : String
  cuda_version : String
deriving DecidableEq

/-- Outcome of the CTranslate2 probe: the import fails, or
get_cuda_device_count raises some other exception with a message, or it
returns a device count. -/
inductive CT2Outcome where
  | importError
  | runtimeError (msg : String)
  | ok (count : Nat)
deriving DecidableEq

/-- The runtime environment diagnose_cuda runs in: the torch import
result (none means ImportError), the CTranslate2 probe outcome, and the
PATH environment variable (none means absent). -/
structure PyEnv where
  torch : Option TorchInfo
  ctranslate2 : CT2Outcome
  pathVar : Option String
deriving DecidableEq

/-- A Python exception: ImportError or any other exception. -/
inductive PyExc where
  | importError (modName : String)
  | otherError (msg : String)
deriving DecidableEq

/-- Body of the first try block of diagnose_cuda: import torch and print
the PyTorch lines; raises ImportError when torch is missing. -/
def torchTryBody (o : Option TorchInfo) : Except PyExc (List String) :=
  match o with
  | none => Except.error (PyExc.importError "torch")
  | some t =>
    Except.ok
      (["--- PyTorch ---",
        "PyTorch 识别 CUDA: " ++ (if t.cuda_available then "✅ 是" else "❌ 否")] ++
       (if t.cuda_available then
          ["显卡型号: " ++ t.device_name, "CUDA 版本: " ++ t.cuda_version]
        else []))

/-- The lines the torch block leaves on screen: the hint when the import
fails, otherwise the PyTorch report. -/
def torchLines (o : Option TorchInfo) : List String :=
  match o with
  | none => ["❌ 未安装 torch，请运行 pip install torch"]
  | some t =>
    ["--- PyTorch ---",
     "PyTorch 识别 CUDA: " ++ (if t.cuda_available then "✅ 是" else "❌ 否")] ++
    (if t.cuda_available then
       ["显卡型号: " ++ t.device_name, "CUDA 版本: " ++ t.cuda_version]
     else [])

/-- An except-ImportError handler: catches exactly ImportError, replacing
it by the handler lines; everything else propagates. -/
def catchImport (r : Except PyExc (List String)) (handler : List String) :
    Except PyExc (List String) :=
  match r with
  | Except.error (PyExc.importError _) => Except.ok handler
  | other => other

/-- Body of the second try block: import ctranslate2, read the device
count, print the count line and the verdict hint lines.  Returns the
lines together with the count assigned to cuda_device_count. -/
def ct2TryBody (c : CT2Outcome) : Except PyExc (List String × Nat) :=
  match c with
  | CT2Outcome.importError => Except.error (PyExc.importError "ctranslate2")
  | CT2Outcome.runtimeError m => Except.error (PyExc.otherError m)
  | CT2Outcome.ok n =>
    Except.ok
      (("CTranslate2 识别 GPU 数量: " ++ toString n) ::
       (if 0 < n then ["✅ CTranslate2 环境正常，GPU 加速可用。"]
        else ["❌ CTranslate2 未识别到 GPU。",
              "   建议安装: pip install nvidia-cublas-cu12 nvidia-cudnn-cu12"]), n)

/-- The second try block with its two handlers (except ImportError and
except Exception): never propagates anything, and cuda_device_count keeps
its initial value 0 on both handler paths. -/
def ct2Block (c : CT2Outcome) : List String × Nat :=
  match ct2TryBody c with
  | Except.ok r => r
  | Except.error (PyExc.importError _) => (["❌ 未安装 faster-whisper 或 ctranslate2"], 0)
  | Except.error (PyExc.otherError m) =>
    (["❌ CTranslate2 运行时错误: " ++ m,
      "   这通常意味着缺少 cublas64_12.dll 或 cudnn64_12.dll"], 0)

/-- The substring test of the Python expression CUDA in path.upper,
upper-casing ASCII letters character by character. -/
def occursIn (pat : List Char) : List Char → Bool
  | [] => pat.isPrefixOf ([] : List Char)
  | c :: rest => pat.isPrefixOf (c :: rest) || occursIn pat rest

/-- Whether the PATH value contains CUDA case-insensitively. -/
def hasCUDA (s : String) : Bool :=
  occursIn "CUDA".data (s.data.map Char.toUpper)

/-- The system path check: reads PATH with an empty default and prints
one line depending on the substring test. -/
def pathBlock (pv : Option String) : List String :=
  if hasCUDA (pv.getD "") then ["✅ 环境变量中包含 CUDA 路径"]
  else ["⚠️ 环境变量中未发现 CUDA 路径 (如果已安装 nvidia-cublas-cu12 库，这通常没关系)"]

/-- The success conclusion line of diagnose_cuda. -/
def successLine : String := "🚀 结论：你的 CUDA 环境【符合要求】，可以流畅运行 GPU 转录！"

/-- The failure conclusion line of diagnose_cuda. -/
def failLine : String := "😟 结论：你的 CUDA 环境【尚不完善】，请根据上方提示修复。"

/-- Shallow embedding of diagnose_cuda from check_cuda.py: the printed
lines in order together with the final verdict, or a propagated
exception.  The verdict test cuda_device_count in locals() is always
true because the variable is assigned 0 before the try block. -/
def diagnose_cuda (env : PyEnv) : Except PyExc (List String × Bool) :=
  match catchImport (torchTryBody env.torch) ["❌ 未安装 torch，请运行 pip install torch"] with
  | Except.error e => Except.error e
  | Except.ok l1 =>
    let r2 := ct2Block env.ctranslate2
    let l3 := pathBlock env.pathVar
    let verdict : Bool := decide (0 < r2.2)
    Except.ok
      (["🔍 正在诊断 CUDA 运行环境...\n"] ++ l1 ++
       ["\n--- faster-whisper / CTranslate2 ---"] ++ r2.1 ++
       ["\n--- 系统路径检查 ---"] ++ l3 ++
       ["\n========================================"] ++
       [if verdict then successLine else failLine], verdict)

/-- The printed lines of diagnose_cuda (empty on a propagated exception). -/
def diagLines (env : PyEnv) : List String :=
  match diagnose_cuda env with
  | Except.ok r => r.1
  | Except.error _ => []

/-- The final verdict of diagnose_cuda (false on a propagated exception). -/
def diagVerdict (env : PyEnv) : Bool :=
  match diagnose_cuda env with
  | Except.ok r => r.2
  | Except.error _ => false

end CheckCuda

namespace Autocut

theorem normalize_eq_filter_map (s : List Char) :
    normalize s = (s.filter retained).map normChar := by
  induction s with
  | nil => rfl
  | cons c rest ih =>
    by_cases h : retained c = true
    · simp [normalize, List.filter_cons, h, ih]
    · simp [normalize, List.filter_cons, h, ih]

theorem toNat_normChar_of_upper (c : Char) (h : isUpperAscii c = true) :
    (normChar c).toNat = c.toNat + 32 := by
  have hb : 65 ≤ c.toNat ∧ c.toNat ≤ 90 := by
    simpa [isUpperAscii] using h
  rw [normChar, if_pos h]
  obtain ⟨h1, h2⟩ := hb
  generalize hv : c.toNat = v at h1 h2 ⊢
  interval_cases v <;> decide

theorem retained_normChar {c : Char} (h : retained c = true) :
    retained (normChar c) = true ∧ normChar (normChar c) = normChar c := by
  by_cases hu : isUpperAscii c = true
  · have hb : 65 ≤ c.toNat ∧ c.toNat ≤ 90 := by simpa [isUpperAscii] using hu
    rw [normChar, if_pos hu]
    obtain ⟨h1, h2⟩ := hb
    generalize hv : c.toNat = v at h1 h2
    have hc : c = Char.ofNat v := by
      rw [← hv]
      exact (Char.ofNat_toNat c).symm
    subst hc
    interval_cases v <;> exact ⟨by decide, by decide⟩
  · have : normChar c = c := by rw [normChar, if_neg hu]
    rw [this]
    exact ⟨h, this⟩

theorem mem_normalize {c : Char} {s : List Char} (h : c ∈ normalize s) :
    retained c = true ∧ normChar c = c := by
  rw [normalize_eq_filter_map] at h
  obtain ⟨c0, hc0, rfl⟩ := List.mem_map.mp h
  have hr : retained c0 = true := List.of_mem_filter hc0
  exact ⟨(retained_normChar hr).1, (retained_normChar hr).2⟩

theorem normalize_fixed {l : List Char}
    (h : ∀ c ∈ l, retained c = true ∧ normChar c = c) : normalize l = l := by
  induction l with
  | nil => rfl
  | cons c rest ih =>
    have hc := h c (List.mem_cons_self c rest)
    have hrest := ih fun x hx => h x (List.mem_cons_of_mem c hx)
    simp [normalize, hc.1, hc.2, hrest]

theorem normalize_append (a b : List Char) :
    normalize (a ++ b) = normalize a ++ normalize b := by
  induction a with
  | nil => rfl
  | cons c rest ih =>
    by_cases h : retained c = true <;> simp [normalize, h, ih]

theorem round_mono_q {x y : ℚ} (h : x ≤ y) : round x ≤ round y := by
  rw [round_eq, round_eq]
  exact Int.floor_le_floor (by linarith)

theorem clampPos_mono (total : Nat) {x y : ℚ} (h : x ≤ y) :
    clampPos total x ≤ clampPos total y := by
  unfold clampPos
  exact min_le_min (Int.toNat_le_toNat (round_mono_q h)) (le_refl _)

theorem clampPos_le_total (total : Nat) (x : ℚ) : clampPos total x ≤ total :=
  min_le_right _ _

theorem clampPos_zero (total : Nat) : clampPos total 0 = 0 := by
  simp [clampPos, round_zero]

theorem clampPos_total (total : Nat) : clampPos total (total : ℚ) = total := by
  simp [clampPos, round_natCast]

theorem reflowWalk_timeMap (scale : ℚ) (total : Nat) (norm : List Char) :
    ∀ (ts : List TimedToken) (acc : ℚ) (prev : Nat),
      ((reflowWalk scale total norm acc prev ts).1).map timeOf = ts.map timeOf := by
  intro ts
  induction ts with
  | nil => intro acc prev; rfl
  | cons t rest ih =>
    intro acc prev
    by_cases hL : normLen t = 0
    · simp only [reflowWalk, if_pos hL, List.map_cons]
      rw [ih]
    · simp only [reflowWalk, if_neg hL, List.map_cons]
      rw [ih]
      rfl

theorem appendLast_timeMap (x : List Char) :
    ∀ (ts r : List TimedToken), appendLast x ts = some r →
      r.map timeOf = ts.map timeOf := by
  intro ts
  induction ts with
  | nil => intro r h; simp [appendLast] at h
  | cons t rest ih =>
    intro r h
    simp only [appendLast] at h
    cases hrec : appendLast x rest with
    | some r2 =>
      rw [hrec] at h
      obtain rfl := Option.some.inj h
      simp only [List.map_cons]
      rw [ih r2 hrec]
    | none =>
      rw [hrec] at h
      by_cases hL : normLen t = 0
      · rw [if_pos hL] at h
        exact absurd h (by simp)
      · rw [if_neg hL] at h
        obtain rfl := Option.some.inj h
        rfl

/-- C5: ProportionalReflow.reflow returns a token list of the same length
whose entries keep the start and stop timestamps of the corresponding
inputs; only the text field is replaced. -/
theorem reflow_frame : ∀ (tokens : List TimedToken) (revised : List Char),
    (reflow tokens revised).map timeOf = tokens.map timeOf ∧
      (reflow tokens revised).length = tokens.length := by
  intro tokens revised
  have hmain : (reflow tokens revised).map timeOf = tokens.map timeOf := by
    simp only [reflow, reflowAssemble]
    set scale : ℚ := if (tokens.map normLen).sum = 0 then 1
      else ((normalize revised).length : ℚ) / (((tokens.map normLen).sum : ℕ) : ℚ) with hscale
    set w := reflowWalk scale (normalize revised).length (normalize revised) 0 0 tokens with hw
    have hwalk : w.1.map timeOf = tokens.map timeOf := reflowWalk_timeMap _ _ _ _ _ _
    by_cases hleft : (normalize revised).drop w.2 = []
    · rw [if_pos hleft]
      exact hwalk
    · rw [if_neg hleft]
      cases happ : appendLast ((normalize revised).drop w.2) w.1 with
      | some r =>
        rw [appendLast_timeMap _ _ _ happ]
        exact hwalk
      | none =>
        cases hw1 : w.1 with
        | nil => rw [hw1] at hwalk; exact hwalk
        | cons t rest =>
          rw [hw1] at hwalk
          simp only [List.map_cons] at hwalk ⊢
          exact hwalk
  refine ⟨hmain, ?_⟩
  have := congrArg List.length hmain
  simpa using this

theorem reflowWalk_spec (scale : ℚ) (total : Nat) (norm : List Char)
    (hscale : 0 ≤ scale) (hlen : norm.length = total)
    (hfix : ∀ c ∈ norm, retained c = true ∧ normChar c = c) :
    ∀ (ts : List TimedToken) (acc : ℚ) (prev : Nat), prev = clampPos total acc →
      (reflowWalk scale total norm acc prev ts).2
          = clampPos total (acc + (((ts.map normLen).sum : ℕ) : ℚ) * scale) ∧
      (((reflowWalk scale total norm acc prev ts).1).map normLen).sum
          = (reflowWalk scale total norm acc prev ts).2 - prev ∧
      prev ≤ (reflowWalk scale total norm acc prev ts).2 := by
  intro ts
  induction ts with
  | nil =>
    intro acc prev hprev
    refine ⟨?_, by simp [reflowWalk], by simp [reflowWalk]⟩
    simp only [reflowWalk, List.map_nil, List.sum_nil, Nat.cast_zero, zero_mul, add_zero]
    exact hprev
  | cons t rest ih =>
    intro acc prev hprev
    by_cases hL : normLen t = 0
    · have ihr := ih acc prev hprev
      simp only [reflowWalk, if_pos hL]
      refine ⟨?_, ?_, ihr.2.2⟩
      · rw [ihr.1, List.map_cons, List.sum_cons, hL, Nat.zero_add]
      · rw [List.map_cons, List.sum_cons, hL, Nat.zero_add]
        exact ihr.2.1
    · have hacc2 : acc ≤ acc + (normLen t : ℚ) * scale := by
        have : (0 : ℚ) ≤ (normLen t : ℚ) * scale :=
          mul_nonneg (Nat.cast_nonneg _) hscale
        linarith
      have hple : prev ≤ clampPos total (acc + (normLen t : ℚ) * scale) := by
        rw [hprev]
        exact clampPos_mono total hacc2
      have htle : clampPos total (acc + (normLen t : ℚ) * scale) ≤ total :=
        clampPos_le_total total _
      have ihr := ih (acc + (normLen t : ℚ) * scale)
        (clampPos total (acc + (normLen t : ℚ) * scale)) rfl
      simp only [reflowWalk, if_neg hL]
      have hsub : ∀ c ∈ (norm.take (clampPos total (acc + (normLen t : ℚ) * scale))).drop prev,
          retained c = true ∧ normChar c = c := by
        intro c hc
        exact hfix c (List.mem_of_mem_take (List.mem_of_mem_drop hc))
      have hslice : normLen { t with
          text := (norm.take (clampPos total (acc + (normLen t : ℚ) * scale))).drop prev } =
          clampPos total (acc + (normLen t : ℚ) * scale) - prev := by
        have h1 : normLen { t with
            text := (norm.take (clampPos total (acc + (normLen t : ℚ) * scale))).drop prev } =
            (normalize ((norm.take (clampPos total (acc + (normLen t : ℚ) * scale))).drop prev)).length := rfl
        rw [h1, normalize_fixed hsub, List.length_drop, List.length_take, hlen,
          Nat.min_eq_left htle]
      refine ⟨?_, ?_, ?_⟩
      · rw [ihr.1, List.map_cons, List.sum_cons]
        congr 1
        push_cast
        ring
      · rw [List.map_cons, List.sum_cons, hslice, ihr.2.1]
        omega
      · exact le_trans hple ihr.2.2

theorem reflowWalk_all_zero (scale : ℚ) (total : Nat) (norm : List Char) :
    ∀ (ts : List TimedToken) (acc : ℚ) (prev : Nat),
      (∀ t ∈ ts, normLen t = 0) →
      reflowWalk scale total norm acc prev ts = (ts, prev) := by
  intro ts
  induction ts with
  | nil => intro acc prev _; rfl
  | cons t rest ih =>
    intro acc prev hz
    have ht : normLen t = 0 := hz t (List.mem_cons_self t rest)
    have hrest : ∀ x ∈ rest, normLen x = 0 :=
      fun x hx => hz x (List.mem_cons_of_mem t hx)
    simp only [reflowWalk, if_pos ht, ih acc prev hrest]

theorem appendLast_all_zero (x : List Char) :
    ∀ ts : List TimedToken, (∀ t ∈ ts, normLen t = 0) →
      appendLast x ts = none := by
  intro ts
  induction ts with
  | nil => intro _; rfl
  | cons t rest ih =>
    intro hz
    have ht : normLen t = 0 := hz t (List.mem_cons_self t rest)
    have hrest : ∀ y ∈ rest, normLen y = 0 :=
      fun y hy => hz y (List.mem_cons_of_mem t hy)
    simp only [appendLast, ih hrest, if_pos ht]

/-- C2 counterexample: reflow on the empty token list returns the empty
list, so with a nonempty revised text the normalized character count is
not conserved. -/
theorem reflow_conservation_counterexample :
    ¬ ((reflow [] ['a']).map normLen).sum = (normalize ['a']).length := by
  decide

/-- C2 (amended): for every nonempty token list and every revised text,
ProportionalReflow.reflow conserves the normalized character count: the
sum of the normalized lengths of the reflowed texts equals the
normalized length of the revised text. -/
theorem reflow_conservation : ∀ (tokens : List TimedToken) (revised : List Char),
    tokens ≠ [] →
    ((reflow tokens revised).map normLen).sum = (normalize revised).length := by
  intro tokens revised hne
  have hfix : ∀ c ∈ normalize revised, retained c = true ∧ normChar c = c :=
    fun c hc => mem_normalize hc
  by_cases h0 : (tokens.map normLen).sum = 0
  · have hz : ∀ t ∈ tokens, normLen t = 0 := by
      intro t ht
      exact List.sum_eq_zero_iff.mp h0 (normLen t) (List.mem_map_of_mem normLen ht)
    simp only [reflow]
    rw [if_pos h0, reflowWalk_all_zero _ _ _ tokens 0 0 hz]
    simp only [reflowAssemble, List.drop_zero]
    by_cases hnorm : normalize revised = []
    · rw [if_pos hnorm, hnorm]
      simpa using h0
    · rw [if_neg hnorm, appendLast_all_zero _ tokens hz]
      cases tokens with
      | nil => exact absurd rfl hne
      | cons t rest =>
        have ht : normLen t = 0 := hz t (List.mem_cons_self t rest)
        have hrest : (rest.map normLen).sum = 0 := by
          rw [List.map_cons, List.sum_cons, ht, Nat.zero_add] at h0
          exact h0
        have hhead : normLen { t with text := t.text ++ normalize revised } =
            (normalize revised).length := by
          have h1 : normLen { t with text := t.text ++ normalize revised } =
              (normalize (t.text ++ normalize revised)).length := rfl
          have h2 : (normalize t.text).length = 0 := ht
          rw [h1, normalize_append, List.length_append, normalize_fixed hfix]
          omega
        simp only [List.map_cons, List.sum_cons, hhead, hrest, Nat.add_zero]
  · simp only [reflow]
    rw [if_neg h0]
    have hsc : (0 : ℚ) ≤ ((normalize revised).length : ℚ) / (((tokens.map normLen).sum : ℕ) : ℚ) :=
      div_nonneg (Nat.cast_nonneg _) (Nat.cast_nonneg _)
    have hw := reflowWalk_spec _ _ _ hsc rfl hfix tokens 0 0 (clampPos_zero _).symm
    have hcast : (((tokens.map normLen).sum : ℕ) : ℚ) ≠ 0 := Nat.cast_ne_zero.mpr h0
    have harith : (0 : ℚ) + (((tokens.map normLen).sum : ℕ) : ℚ) *
        (((normalize revised).length : ℚ) / (((tokens.map normLen).sum : ℕ) : ℚ)) =
        (((normalize revised).length : ℕ) : ℚ) := by
      rw [zero_add, mul_comm, div_mul_cancel₀ _ hcast]
    rw [harith] at hw
    have hw2 : (reflowWalk (((normalize revised).length : ℚ) / (((tokens.map normLen).sum : ℕ) : ℚ))
        (normalize revised).length (normalize revised) 0 0 tokens).2 =
        (normalize revised).length := by
      rw [hw.1, clampPos_total]
    simp only [reflowAssemble, hw2, List.drop_length, reduceIte]
    rw [hw.2.1, hw2]
    omega

/-- Witness for the C2 theorem: one token of one normalized character,
revised text of two characters. -/
theorem reflow_conservation_witness :
    ((reflow [⟨['a'], 0, 1⟩] ['a', 'b']).map normLen).sum =
      (normalize ['a', 'b']).length :=
  reflow_conservation [⟨['a'], 0, 1⟩] ['a', 'b'] (by decide)

/-- C4: TextNormalizer.normalize returns exactly the characters of the
retained class (CJK ideographs U+4E00 to U+9FFF, ASCII letters, ASCII
digits) in original order, ASCII upper-case letters replaced by their
lower-case forms (code point plus 32) and all other characters kept
verbatim, and maps the empty string to the empty string.  It is a plain
function of its argument, hence deterministic and without side
effects. -/
theorem normalize_contract : ∀ s : List Char,
    normalize s = (s.filter retained).map normChar ∧
    normalize ([] : List Char) = [] ∧
    (∀ c, isUpperAscii c = true → (normChar c).toNat = c.toNat + 32) ∧
    (∀ c, isUpperAscii c = false → normChar c = c) := by
  intro s
  refine ⟨normalize_eq_filter_map s, rfl, fun c hc => toNat_normChar_of_upper c hc, ?_⟩
  intro c hc
  rw [normChar, if_neg (by simp [hc])]

/-- Witness for the C4 theorem: lower-casing at an upper-case letter and
fixity at a lower-case letter. -/
theorem normalize_contract_witness :
    (normChar 'A').toNat = 'A'.toNat + 32 ∧ normChar 'z' = 'z' :=
  ⟨(normalize_contract []).2.2.1 'A' (by decide),
   (normalize_contract []).2.2.2 'z' (by decide)⟩

theorem lookupPair_mem (index : List IndexEntry) (tokens : List TimedToken)
    (cursor L : Nat) (t1 t2 : TimedToken)
    (h : lookupPair index tokens cursor L = some (t1, t2)) :
    t1 ∈ tokens ∧ t2 ∈ tokens := by
  unfold lookupPair at h
  split at h
  · split at h
    · next heq1 heq2 =>
      obtain ⟨rfl, rfl⟩ := Prod.mk.injEq .. |>.mp (Option.some.inj h)
      exact ⟨List.getElem?_mem heq1, List.getElem?_mem heq2⟩
    · exact absurd h (by simp)
  · exact absurd h (by simp)

/-- C6: every start or stop value of a segment produced by
SegmentMatcher on the matched path (not the empty-text or no-match
fallback) equals the start or stop of some token of the input token
stream. -/
theorem matcher_timestamp_fidelity :
    ∀ (units : List TextUnit) (index : List IndexEntry) (tokens : List TimedToken)
      (pr : AlignedSegment × MatchPath),
      pr ∈ matchUnits units index tokens → pr.2 = MatchPath.matched →
      (∃ t1 ∈ tokens, pr.1.start = t1.start) ∧ (∃ t2 ∈ tokens, pr.1.stop = t2.stop) := by
  intro units index tokens
  suffices h : ∀ (us : List TextUnit) (cursor : Nat) (prevEnd : ℚ)
      (pr : AlignedSegment × MatchPath),
      pr ∈ matchGo index tokens cursor prevEnd us → pr.2 = MatchPath.matched →
      (∃ t1 ∈ tokens, pr.1.start = t1.start) ∧ (∃ t2 ∈ tokens, pr.1.stop = t2.stop) by
    intro pr hm
    exact h units 0 0 pr hm
  intro us
  induction us with
  | nil =>
    intro cursor prevEnd pr hm
    simp [matchGo] at hm
  | cons u rest ih =>
    intro cursor prevEnd pr hm hmat
    simp only [matchGo] at hm
    by_cases hL : (normalize u.raw_text).length = 0
    · rw [if_pos hL] at hm
      rcases List.mem_cons.mp hm with h | h
      · subst h
        exact absurd hmat (by simp)
      · exact ih _ _ _ h hmat
    · rw [if_neg hL] at hm
      cases hlp : lookupPair index tokens cursor (normalize u.raw_text).length with
      | some p =>
        obtain ⟨t1, t2⟩ := p
        rw [hlp] at hm
        obtain ⟨ht1, ht2⟩ := lookupPair_mem _ _ _ _ _ _ hlp
        rcases List.mem_cons.mp hm with h | h
        · subst h
          exact ⟨⟨t1, ht1, rfl⟩, ⟨t2, ht2, rfl⟩⟩
        · exact ih _ _ _ h hmat
      | none =>
        rw [hlp] at hm
        rcases List.mem_cons.mp hm with h | h
        · subst h
          exact absurd hmat (by simp)
        · exact ih _ _ _ h hmat

/-- Witness for the C6 theorem: a single unit matching a single token. -/
theorem matcher_timestamp_fidelity_witness :
    (∃ t1 ∈ [(⟨['a', 'b'], 0, 1⟩ : TimedToken)],
        (⟨0, (0 : ℚ), (1 : ℚ), ['a', 'b']⟩ : AlignedSegment).start = t1.start) ∧
    (∃ t2 ∈ [(⟨['a', 'b'], 0, 1⟩ : TimedToken)],
        (⟨0, (0 : ℚ), (1 : ℚ), ['a', 'b']⟩ : AlignedSegment).stop = t2.stop) :=
  matcher_timestamp_fidelity [⟨0, ['a', 'b']⟩] [⟨0, 0, 2⟩] [⟨['a', 'b'], 0, 1⟩]
    (⟨0, 0, 1, ['a', 'b']⟩, MatchPath.matched) (by decide) rfl

theorem validateTokens_ok_iff : ∀ raw : List RawToken,
    (∃ ts, validateTokens raw = Except.ok ts) ↔
      ∀ r ∈ raw, (validateToken r).isSome = true := by
  intro raw
  induction raw with
  | nil => simp [validateTokens]
  | cons r rs ih =>
    constructor
    · rintro ⟨ts, hts⟩
      simp only [validateTokens] at hts
      cases hv : validateToken r with
      | none =>
        rw [hv] at hts
        cases hts
      | some t =>
        rw [hv] at hts
        cases hrs : validateTokens rs with
        | error e =>
          rw [hrs] at hts
          cases hts
        | ok ts2 =>
          intro x hx
          rcases List.mem_cons.mp hx with rfl | hx2
          · simp [hv]
          · exact ih.mp ⟨ts2, hrs⟩ x hx2
    · intro hall
      have hr : (validateToken r).isSome = true := hall r (List.mem_cons_self r rs)
      obtain ⟨t, ht⟩ := Option.isSome_iff_exists.mp hr
      obtain ⟨ts2, hts2⟩ := ih.mpr fun x hx => hall x (List.mem_cons_of_mem r hx)
      exact ⟨t :: ts2, by simp [validateTokens, ht, hts2]⟩

/-- C7: the alignment call fails if and only if some raw token is
structurally invalid (missing field, wrong type, or negative duration);
on structurally valid input, including degenerate inputs with zero
total normalized characters or zero-length unit texts, it always
returns a result, because the fallback policies inside reflow and the
matcher are total. -/
theorem alignCore_error_iff :
    ∀ (raw : List RawToken) (units : List TextUnit) (revised : Option (List Char)),
      (alignCore raw units revised).isOk = true ↔
        ∀ r ∈ raw, (validateToken r).isSome = true := by
  intro raw units revised
  unfold alignCore
  cases hv : validateTokens raw with
  | error e =>
    have hnot : ¬ ∀ r ∈ raw, (validateToken r).isSome = true := by
      intro hall
      obtain ⟨ts, hts⟩ := (validateTokens_ok_iff raw).mpr hall
      rw [hts] at hv
      cases hv
    exact iff_of_false (by simp [hv, Except.isOk, Except.toBool]) hnot
  | ok ts =>
    exact iff_of_true (by simp [hv, Except.isOk, Except.toBool]) ((validateTokens_ok_iff raw).mp ⟨ts, hv⟩)

/-- Witness for the C7 theorem: a structurally valid but fully
degenerate input (a pure punctuation token of zero duration, a unit
with empty text, an empty revised text) aligns without error. -/
theorem alignCore_error_iff_witness :
    (alignCore [⟨some (RawVal.vstr ['，']), some (RawVal.vnum 0), some (RawVal.vnum 0)⟩]
      [⟨0, []⟩] (some [])).isOk = true :=
  (alignCore_error_iff
      [⟨some (RawVal.vstr ['，']), some (RawVal.vnum 0), some (RawVal.vnum 0)⟩]
      [⟨0, []⟩] (some [])).mpr (by decide)

theorem backwardPass_cons_head (rest : List AlignedSegment) :
    ∀ s : AlignedSegment, ∃ s2 r2,
      backwardPass (s :: rest) = s2 :: r2 ∧ s2.start = s.start := by
  induction rest with
  | nil => exact fun s => ⟨s, [], rfl, rfl⟩
  | cons t0 rest2 ih =>
    intro s
    obtain ⟨t2, r2, heq, hst⟩ := ih t0
    by_cases h1 : t2.start < s.stop
    · by_cases h2 : s.start = t2.start
      · exact ⟨{ s with stop := tieCut s t2 }, { t2 with start := tieCut s t2 } :: r2,
          by simp only [backwardPass, heq, if_pos h1, if_pos h2], rfl⟩
      · exact ⟨{ s with stop := t2.start }, t2 :: r2,
          by simp only [backwardPass, heq, if_pos h1, if_neg h2], rfl⟩
    · exact ⟨s, t2 :: r2, by simp only [backwardPass, heq, if_neg h1], rfl⟩

theorem pairwiseLeB_set_start {t : AlignedSegment} {rs : List AlignedSegment}
    (x : ℚ) (h : pairwiseLeB (t :: rs) = true) :
    pairwiseLeB ({ t with start := x } :: rs) = true := by
  cases rs with
  | nil => rfl
  | cons u ru => simpa [pairwiseLeB] using h

theorem backwardPass_pairwiseLe (l : List AlignedSegment) :
    pairwiseLeB (backwardPass l) = true := by
  induction l with
  | nil => rfl
  | cons s ls ih =>
    cases ls with
    | nil => rfl
    | cons t0 rest2 =>
      obtain ⟨t2, r2, heq, hst⟩ := backwardPass_cons_head rest2 t0
      rw [heq] at ih
      by_cases h1 : t2.start < s.stop
      · by_cases h2 : s.start = t2.start
        · simp only [backwardPass, heq, if_pos h1, if_pos h2, pairwiseLeB,
            Bool.and_eq_true, decide_eq_true_eq]
          exact ⟨le_refl _, pairwiseLeB_set_start _ ih⟩
        · simp only [backwardPass, heq, if_pos h1, if_neg h2, pairwiseLeB,
            Bool.and_eq_true, decide_eq_true_eq]
          exact ⟨le_refl _, ih⟩
      · simp only [backwardPass, heq, if_neg h1, pairwiseLeB,
          Bool.and_eq_true, decide_eq_true_eq]
        exact ⟨le_of_not_lt h1, ih⟩

theorem forwardPass_cons_head (t : AlignedSegment) (rs : List AlignedSegment) :
    ∃ t2 rs2, forwardPass (t :: rs) = t2 :: rs2 ∧ t2.start = t.start := by
  cases rs with
  | nil => exact ⟨t, [], rfl, rfl⟩
  | cons u ru =>
    by_cases h : t.stop < u.start
    · exact ⟨{ t with stop := u.start }, forwardPass (u :: ru),
        by simp only [forwardPass, if_pos h], rfl⟩
    · exact ⟨t, forwardPass (u :: ru), by simp only [forwardPass, if_neg h], rfl⟩

theorem forwardPass_contiguous (l : List AlignedSegment)
    (h : pairwiseLeB l = true) : contiguousB (forwardPass l) = true := by
  induction l with
  | nil => rfl
  | cons s ls ih =>
    cases ls with
    | nil => rfl
    | cons t rs =>
      simp only [pairwiseLeB, Bool.and_eq_true, decide_eq_true_eq] at h
      obtain ⟨hle, htail⟩ := h
      obtain ⟨t2, rs2, heq, hst⟩ := forwardPass_cons_head t rs
      have ihtail := ih htail
      rw [heq] at ihtail
      by_cases hlt : s.stop < t.start
      · simp only [forwardPass, if_pos hlt, heq, contiguousB,
          Bool.and_eq_true, decide_eq_true_eq]
        exact ⟨hst.symm, ihtail⟩
      · have heqv : s.stop = t.start := le_antisymm hle (le_of_not_lt hlt)
        simp only [forwardPass, if_neg hlt, heq, contiguousB,
          Bool.and_eq_true, decide_eq_true_eq]
        exact ⟨heqv.trans hst.symm, ihtail⟩

theorem backwardPass_id (l : List AlignedSegment)
    (h : contiguousB l = true) : backwardPass l = l := by
  induction l with
  | nil => rfl
  | cons s ls ih =>
    cases ls with
    | nil => rfl
    | cons t0 rest =>
      simp only [contiguousB, Bool.and_eq_true, decide_eq_true_eq] at h
      obtain ⟨hstop, htail⟩ := h
      have ihr : backwardPass (t0 :: rest) = t0 :: rest := ih htail
      have hnlt : ¬ t0.start < s.stop := by
        rw [hstop]
        exact lt_irrefl _
      simp only [backwardPass, ihr, if_neg hnlt]

theorem forwardPass_id (l : List AlignedSegment)
    (h : contiguousB l = true) : forwardPass l = l := by
  induction l with
  | nil => rfl
  | cons s ls ih =>
    cases ls with
    | nil => rfl
    | cons t rs =>
      simp only [contiguousB, Bool.and_eq_true, decide_eq_true_eq] at h
      obtain ⟨hstop, htail⟩ := h
      have hnlt : ¬ s.stop < t.start := by
        rw [hstop]
        exact lt_irrefl _
      simp only [forwardPass, if_neg hnlt, ih htail]

theorem backwardPass_wf (l : List AlignedSegment)
    (hwf : ∀ s ∈ l, s.start ≤ s.stop) (hss : strictStartsB l = true) :
    ∀ s ∈ backwardPass l, s.start ≤ s.stop := by
  induction l with
  | nil => simp [backwardPass]
  | cons s ls ih =>
    cases ls with
    | nil => simpa [backwardPass] using hwf
    | cons t0 rest2 =>
      simp only [strictStartsB, Bool.and_eq_true, decide_eq_true_eq] at hss
      obtain ⟨hlt0, hss2⟩ := hss
      have hwf2 : ∀ x ∈ t0 :: rest2, x.start ≤ x.stop :=
        fun x hx => hwf x (List.mem_cons_of_mem s hx)
      have ihr := ih hwf2 hss2
      obtain ⟨t2, r2, heq, hst⟩ := backwardPass_cons_head rest2 t0
      rw [heq] at ihr
      have hs0 : s.start ≤ s.stop := hwf s (List.mem_cons_self s _)
      by_cases h1 : t2.start < s.stop
      · have h2 : ¬ s.start = t2.start := by
          rw [hst]
          exact ne_of_lt hlt0
        simp only [backwardPass, heq, if_pos h1, if_neg h2]
        intro x hx
        rcases List.mem_cons.mp hx with hx1 | hx2
        · subst hx1
          show s.start ≤ t2.start
          rw [hst]
          exact le_of_lt hlt0
        · exact ihr x hx2
      · simp only [backwardPass, heq, if_neg h1]
        intro x hx
        rcases List.mem_cons.mp hx with hx1 | hx2
        · subst hx1; exact hs0
        · exact ihr x hx2

theorem forwardPass_wf (l : List AlignedSegment)
    (hwf : ∀ s ∈ l, s.start ≤ s.stop) :
    ∀ s ∈ forwardPass l, s.start ≤ s.stop := by
  induction l with
  | nil => simp [forwardPass]
  | cons s ls ih =>
    cases ls with
    | nil => simpa [forwardPass] using hwf
    | cons t rs =>
      have hwf2 : ∀ x ∈ t :: rs, x.start ≤ x.stop :=
        fun x hx => hwf x (List.mem_cons_of_mem s hx)
      have hs0 : s.start ≤ s.stop := hwf s (List.mem_cons_self s _)
      have ihr := ih hwf2
      by_cases h : s.stop < t.start
      · simp only [forwardPass, if_pos h]
        intro x hx
        rcases List.mem_cons.mp hx with hx1 | hx2
        · subst hx1
          exact le_of_lt (lt_of_le_of_lt hs0 h)
        · exact ihr x hx2
      · simp only [forwardPass, if_neg h]
        intro x hx
        rcases List.mem_cons.mp hx with hx1 | hx2
        · subst hx1; exact hs0
        · exact ihr x hx2

/-- C3: GapOverlapReconciler.reconcile is idempotent: for every segment
list x, reconcile (reconcile x) = reconcile x. -/
theorem reconcile_idempotent : ∀ l : List AlignedSegment,
    reconcile (reconcile l) = reconcile l := by
  intro l
  have h : contiguousB (reconcile l) = true :=
    forwardPass_contiguous _ (backwardPass_pairwiseLe l)
  show forwardPass (backwardPass (reconcile l)) = reconcile l
  rw [backwardPass_id _ h, forwardPass_id _ h]

/-- C1 counterexample: the claim that every reconciled list satisfies
start less-or-equal stop for every segment fails as stated: on three
well-formed input segments whose first two share a start, the
proportional tie split of the backward pass pushes the start of the
middle segment past its stop. -/
theorem reconcile_wf_counterexample :
    ¬ (∀ s ∈ reconcile [exSeg0, exSeg1, exSeg2], s.start ≤ s.stop) := by
  intro h
  have hcut : tieCut exSeg0 exSeg1 = 9 := by
    have hc0 : segChars exSeg0 = 9 := by decide
    have hc1 : segChars exSeg1 = 1 := by decide
    rw [tieCut, hc0, hc1]
    simp only [exSeg0, exSeg1]
    norm_num [max_def]
  have h1 : ¬ exSeg2.start < exSeg1.stop := by norm_num [exSeg1, exSeg2]
  have h2 : exSeg1.start < exSeg0.stop := by norm_num [exSeg0, exSeg1]
  have h3 : exSeg0.start = exSeg1.start := by norm_num [exSeg0, exSeg1]
  have hb : backwardPass [exSeg0, exSeg1, exSeg2] =
      [{ exSeg0 with stop := 9 }, { exSeg1 with start := 9 }, exSeg2] := by
    simp only [backwardPass, if_neg h1, if_pos h2, if_pos h3, hcut]
  have h4 : ¬ ({ exSeg0 with stop := (9 : ℚ) }.stop < { exSeg1 with start := (9 : ℚ) }.start) := by
    norm_num
  have h5 : ¬ ({ exSeg1 with start := (9 : ℚ) }.stop < exSeg2.start) := by
    norm_num [exSeg1, exSeg2]
  have hf : forwardPass [{ exSeg0 with stop := 9 }, { exSeg1 with start := 9 }, exSeg2] =
      [{ exSeg0 with stop := 9 }, { exSeg1 with start := 9 }, exSeg2] := by
    simp only [forwardPass, if_neg h4, if_neg h5]
  have hmem : { exSeg1 with start := (9 : ℚ) } ∈ reconcile [exSeg0, exSeg1, exSeg2] := by
    rw [reconcile, hb, hf]
    simp
  have hbad := h _ hmem
  simp only [exSeg1] at hbad
  norm_num at hbad

/-- C1 (amended): every reconciled segment list is contiguous, adjacent
stops equal the following starts; and when the input segments each
satisfy start less-or-equal stop and their start times strictly
increase, every reconciled segment also satisfies start less-or-equal
stop. -/
theorem reconcile_contiguity : ∀ l : List AlignedSegment,
    contiguousB (reconcile l) = true ∧
      ((∀ s ∈ l, s.start ≤ s.stop) → strictStartsB l = true →
        ∀ s ∈ reconcile l, s.start ≤ s.stop) := by
  intro l
  refine ⟨forwardPass_contiguous _ (backwardPass_pairwiseLe l), ?_⟩
  intro hwf hss
  exact forwardPass_wf _ (backwardPass_wf l hwf hss)

/-- Witness for the C1 theorem at a concrete two-segment input. -/
theorem reconcile_contiguity_witness :
    contiguousB (reconcile [⟨0, 0, 1, ['a']⟩, ⟨1, 1, 2, ['b']⟩]) = true ∧
      ∀ s ∈ reconcile [⟨0, 0, 1, ['a']⟩, ⟨1, 1, 2, ['b']⟩], s.start ≤ s.stop :=
  ⟨(reconcile_contiguity _).1,
   (reconcile_contiguity _).2 (by decide) (by decide)⟩

end Autocut

namespace CheckCuda

theorem append_ne_of_take (p x q : String)
    (h : q.data.take p.data.length ≠ p.data) : p ++ x ≠ q := by
  intro he
  apply h
  rw [← he, String.data_append, List.take_left]

theorem catchImport_torch (o : Option TorchInfo) :
    catchImport (torchTryBody o) ["❌ 未安装 torch，请运行 pip install torch"] =
      Except.ok (torchLines o) := by
  cases o with
  | none => rfl
  | some t => rfl

theorem diagnose_cuda_ok (env : PyEnv) :
    diagnose_cuda env =
      Except.ok
        (["🔍 正在诊断 CUDA 运行环境...\n"] ++ torchLines env.torch ++
         ["\n--- faster-whisper / CTranslate2 ---"] ++ (ct2Block env.ctranslate2).1 ++
         ["\n--- 系统路径检查 ---"] ++ pathBlock env.pathVar ++
         ["\n========================================"] ++
         [if decide (0 < (ct2Block env.ctranslate2).2) then successLine else failLine],
         decide (0 < (ct2Block env.ctranslate2).2)) := by
  rw [diagnose_cuda, catchImport_torch]

theorem diagLines_eq (env : PyEnv) :
    diagLines env =
      ["🔍 正在诊断 CUDA 运行环境...\n"] ++ torchLines env.torch ++
      ["\n--- faster-whisper / CTranslate2 ---"] ++ (ct2Block env.ctranslate2).1 ++
      ["\n--- 系统路径检查 ---"] ++ pathBlock env.pathVar ++
      ["\n========================================"] ++
      [if decide (0 < (ct2Block env.ctranslate2).2) then successLine else failLine] := by
  rw [diagLines, diagnose_cuda_ok]

theorem diagVerdict_eq (env : PyEnv) :
    diagVerdict env = decide (0 < (ct2Block env.ctranslate2).2) := by
  rw [diagVerdict, diagnose_cuda_ok]

theorem notin_torchLines (q : String)
    (h1 : q ≠ "❌ 未安装 torch，请运行 pip install torch")
    (h2 : q ≠ "--- PyTorch ---")
    (h3 : q ≠ "PyTorch 识别 CUDA: " ++ "✅ 是")
    (h4 : q ≠ "PyTorch 识别 CUDA: " ++ "❌ 否")
    (h5 : ∀ x, "显卡型号: " ++ x ≠ q)
    (h6 : ∀ x, "CUDA 版本: " ++ x ≠ q) :
    ∀ o : Option TorchInfo, q ∉ torchLines o := by
  intro o hmem
  cases o with
  | none =>
    simp only [torchLines, List.mem_singleton] at hmem
    exact h1 hmem
  | some t =>
    cases ht : t.cuda_available <;>
      rw [torchLines, ht] at hmem <;>
      simp only [Bool.false_eq_true, if_false, if_true, List.append_nil,
        List.mem_append, List.mem_cons, List.mem_singleton, List.not_mem_nil,
        or_false] at hmem
    · rcases hmem with h | h
      · exact h2 h
      · exact h4 h
    · rcases hmem with (h | h) | (h | h)
      · exact h2 h
      · exact h3 h
      · exact h5 t.device_name h.symm
      · exact h6 t.cuda_version h.symm

theorem notin_ct2Lines (q : String)
    (h1 : ∀ x, "CTranslate2 识别 GPU 数量: " ++ x ≠ q)
    (h2 : q ≠ "✅ CTranslate2 环境正常，GPU 加速可用。")
    (h3 : q ≠ "❌ CTranslate2 未识别到 GPU。")
    (h4 : q ≠ "   建议安装: pip install nvidia-cublas-cu12 nvidia-cudnn-cu12")
    (h5 : q ≠ "❌ 未安装 faster-whisper 或 ctranslate2")
    (h6 : ∀ x, "❌ CTranslate2 运行时错误: " ++ x ≠ q)
    (h7 : q ≠ "   这通常意味着缺少 cublas64_12.dll 或 cudnn64_12.dll") :
    ∀ c : CT2Outcome, q ∉ (ct2Block c).1 := by
  intro c hmem
  cases c with
  | importError =>
    simp only [ct2Block, ct2TryBody, List.mem_singleton] at hmem
    exact h5 hmem
  | runtimeError m =>
    simp only [ct2Block, ct2TryBody, List.mem_cons, List.mem_singleton,
      List.not_mem_nil, or_false] at hmem
    rcases hmem with h | h
    · exact h6 m h.symm
    · exact h7 h
  | ok n =>
    simp only [ct2Block, ct2TryBody] at hmem
    by_cases hn : 0 < n
    · rw [if_pos hn] at hmem
      simp only [List.mem_cons, List.mem_singleton, List.not_mem_nil, or_false] at hmem
      rcases hmem with h | h
      · exact h1 (toString n) h.symm
      · exact h2 h
    · rw [if_neg hn] at hmem
      simp only [List.mem_cons, List.mem_singleton, List.not_mem_nil, or_false] at hmem
      rcases hmem with h | h | h
      · exact h1 (toString n) h.symm
      · exact h3 h
      · exact h4 h

theorem notin_pathBlock (q : String)
    (h1 : q ≠ "✅ 环境变量中包含 CUDA 路径")
    (h2 : q ≠ "⚠️ 环境变量中未发现 CUDA 路径 (如果已安装 nvidia-cublas-cu12 库，这通常没关系)") :
    ∀ pv : Option String, q ∉ pathBlock pv := by
  intro pv hmem
  rw [pathBlock] at hmem
  by_cases h : hasCUDA (pv.getD "") = true
  · rw [if_pos h] at hmem
    simp only [List.mem_singleton] at hmem
    exact h1 hmem
  · rw [if_neg h] at hmem
    simp only [List.mem_singleton] at hmem
    exact h2 hmem

theorem ct2Block_count_ok (n : Nat) : (ct2Block (CT2Outcome.ok n)).2 = n := rfl

theorem ct2Block_count_import : (ct2Block CT2Outcome.importError).2 = 0 := rfl

theorem ct2Block_count_runtime (m : String) :
    (ct2Block (CT2Outcome.runtimeError m)).2 = 0 := rfl

/-- C8: diagnose_cuda never propagates an exception: for every
environment it returns Except.ok (runs to completion); when importing
torch fails the installation hint is printed, when importing
ctranslate2 fails its hint is printed, and when the CTranslate2 probe
raises any other exception its message is reported, not propagated. -/
theorem diagnose_cuda_no_exception : ∀ env : PyEnv,
    (diagnose_cuda env).isOk = true ∧
    (env.torch = none →
      "❌ 未安装 torch，请运行 pip install torch" ∈ diagLines env) ∧
    (env.ctranslate2 = CT2Outcome.importError →
      "❌ 未安装 faster-whisper 或 ctranslate2" ∈ diagLines env) ∧
    (∀ m, env.ctranslate2 = CT2Outcome.runtimeError m →
      ("❌ CTranslate2 运行时错误: " ++ m) ∈ diagLines env) := by
  intro env
  refine ⟨by rw [diagnose_cuda_ok]; rfl, ?_, ?_, ?_⟩
  · intro ht
    rw [diagLines_eq, ht]
    simp [torchLines]
  · intro hc
    rw [diagLines_eq, hc]
    simp [ct2Block, ct2TryBody]
  · intro m hc
    rw [diagLines_eq, hc]
    simp [ct2Block, ct2TryBody]

/-- Witness for the C8 theorem: both imports fail and the call still
completes, printing the torch hint. -/
theorem diagnose_cuda_no_exception_witness :
    (diagnose_cuda ⟨none, CT2Outcome.importError, none⟩).isOk = true ∧
      "❌ 未安装 torch，请运行 pip install torch" ∈
        diagLines ⟨none, CT2Outcome.importError, none⟩ :=
  ⟨(diagnose_cuda_no_exception ⟨none, CT2Outcome.importError, none⟩).1,
   (diagnose_cuda_no_exception ⟨none, CT2Outcome.importError, none⟩).2.1 rfl⟩

/-- C9: the final verdict depends only on the CTranslate2 probe: the
success conclusion is printed if and only if get_cuda_device_count
returned a positive count without raising, and replacing the torch
component of the environment never changes the verdict (the count is
initialized to zero, so a skipped or failed probe yields the failure
conclusion). -/
theorem diagnose_cuda_verdict : ∀ env : PyEnv,
    (successLine ∈ diagLines env ↔
      ∃ n, env.ctranslate2 = CT2Outcome.ok n ∧ 0 < n) ∧
    (∀ t, diagVerdict { env with torch := t } = diagVerdict env) := by
  intro env
  constructor
  · rw [diagLines_eq]
    constructor
    · intro hmem
      simp only [List.mem_append, List.mem_singleton] at hmem
      rcases hmem with ((((((hm | hm) | hm) | hm) | hm) | hm) | hm) | hm
      · exact absurd hm (by decide)
      · exact absurd hm (notin_torchLines successLine (by decide) (by decide)
          (by decide) (by decide)
          (fun x => append_ne_of_take _ _ _ (by decide))
          (fun x => append_ne_of_take _ _ _ (by decide)) env.torch)
      · exact absurd hm (by decide)
      · exact absurd hm (notin_ct2Lines successLine
          (fun x => append_ne_of_take _ _ _ (by decide)) (by decide) (by decide)
          (by decide) (by decide)
          (fun x => append_ne_of_take _ _ _ (by decide)) (by decide) env.ctranslate2)
      · exact absurd hm (by decide)
      · exact absurd hm (notin_pathBlock successLine (by decide) (by decide) env.pathVar)
      · exact absurd hm (by decide)
      · by_cases hv : 0 < (ct2Block env.ctranslate2).2
        · cases hc : env.ctranslate2 with
          | ok n =>
            refine ⟨n, rfl, ?_⟩
            rw [hc, ct2Block_count_ok] at hv
            exact hv
          | importError =>
            rw [hc, ct2Block_count_import] at hv
            exact absurd hv (lt_irrefl 0)
          | runtimeError m =>
            rw [hc, ct2Block_count_runtime] at hv
            exact absurd hv (lt_irrefl 0)
        · rw [if_neg (by simpa using hv)] at hm
          exact absurd hm (by decide)
    · rintro ⟨n, hc, hn⟩
      have hv : 0 < (ct2Block env.ctranslate2).2 := by
        rw [hc, ct2Block_count_ok]
        exact hn
      rw [if_pos (by simpa using hv)]
      simp
  · intro t
    rw [diagVerdict_eq, diagVerdict_eq]

/-- Witness for the C9 theorem: with one CUDA device reported, the
success conclusion is among the printed lines. -/
theorem diagnose_cuda_verdict_witness :
    successLine ∈ diagLines ⟨none, CT2Outcome.ok 1, none⟩ :=
  (diagnose_cuda_verdict ⟨none, CT2Outcome.ok 1, none⟩).1.mpr ⟨1, rfl, Nat.one_pos⟩

/-- C10: the system path check reads PATH with an empty-string default,
so it never fails when PATH is absent; the CUDA-path-present line is
printed if and only if CUDA occurs case-insensitively in the PATH
value, and an absent PATH yields the warning line. -/
theorem diagnose_cuda_path : ∀ env : PyEnv,
    ("✅ 环境变量中包含 CUDA 路径" ∈ diagLines env ↔
      hasCUDA (env.pathVar.getD "") = true) ∧
    (env.pathVar = none →
      "⚠️ 环境变量中未发现 CUDA 路径 (如果已安装 nvidia-cublas-cu12 库，这通常没关系)"
        ∈ diagLines env) := by
  intro env
  constructor
  · rw [diagLines_eq]
    constructor
    · intro hmem
      simp only [List.mem_append, List.mem_singleton] at hmem
      rcases hmem with ((((((hm | hm) | hm) | hm) | hm) | hm) | hm) | hm
      · exact absurd hm (by decide)
      · exact absurd hm (notin_torchLines _ (by decide) (by decide)
          (by decide) (by decide)
          (fun x => append_ne_of_take _ _ _ (by decide))
          (fun x => append_ne_of_take _ _ _ (by decide)) env.torch)
      · exact absurd hm (by decide)
      · exact absurd hm (notin_ct2Lines _
          (fun x => append_ne_of_take _ _ _ (by decide)) (by decide) (by decide)
          (by decide) (by decide)
          (fun x => append_ne_of_take _ _ _ (by decide)) (by decide) env.ctranslate2)
      · exact absurd hm (by decide)
      · rw [pathBlock] at hm
        by_cases h : hasCUDA (env.pathVar.getD "") = true
        · exact h
        · rw [if_neg h] at hm
          simp only [List.mem_singleton] at hm
          exact absurd hm (by decide)
      · exact absurd hm (by decide)
      · by_cases hv : 0 < (ct2Block env.ctranslate2).2
        · rw [if_pos (by simpa using hv)] at hm
          exact absurd hm (by decide)
        · rw [if_neg (by simpa using hv)] at hm
          exact absurd hm (by decide)
    · intro h
      have hp : pathBlock env.pathVar = ["✅ 环境变量中包含 CUDA 路径"] := by
        rw [pathBlock, if_pos h]
      rw [hp]
      simp
  · intro hp
    rw [diagLines_eq, hp]
    have h0 : pathBlock none =
        ["⚠️ 环境变量中未发现 CUDA 路径 (如果已安装 nvidia-cublas-cu12 库，这通常没关系)"] := rfl
    rw [h0]
    simp

/-- Witness for the C10 theorem: an absent PATH still completes the path
check and prints the warning line. -/
theorem diagnose_cuda_path_witness :
    "⚠️ 环境变量中未发现 CUDA 路径 (如果已安装 nvidia-cublas-cu12 库，这通常没关系)"
      ∈ diagLines ⟨none, CT2Outcome.ok 0, none⟩ :=
  (diagnose_cuda_path ⟨none, CT2Outcome.ok 0, none⟩).2 rfl

end CheckCuda
